import Mathlib

/-!
Verification of the expense-ledger engine of the Expense-tracker repository
(src/index.js), via a shallow embedding in Lean 4.

Modelling conventions:
* JavaScript numbers are idealised as exact rationals extended with NaN and
  the two infinities (`JSNum`); IEEE-754 rounding is abstracted away.
* The persisted stores become explicit values: the ledger is a `List Expense`
  and the config a `Config`; the engine functions return the new value rather
  than writing a file, and a `none` / dedicated constructor models the error
  message printed instead of a save.
* The current date, read by `addExpense` through `new Date()`, becomes an
  explicit `today : ExDate` parameter; stored dates are the ISO strings the
  code writes, and time zones are idealised away (UTC = local).
-/

namespace ExpenseTracker

/-- JavaScript numbers, idealised: finite values are exact rationals;
NaN and the two infinities are separate constructors. -/
inductive JSNum where
  | nan
  | inf
  | negInf
  | num (q : ℚ)
  deriving DecidableEq

/-- JS `isNaN(x)` for a number `x`. -/
def jsIsNaN : JSNum → Bool
  | .nan => true
  | _ => false

/-- JS `x <= 0` for a number `x` (false for NaN and +Infinity). -/
def jsLeZero : JSNum → Bool
  | .nan => false
  | .inf => false
  | .negInf => true
  | .num q => decide (q ≤ 0)

/-- JS `+` on numbers (exact on finite values, NaN absorbing,
`Infinity + -Infinity = NaN`). -/
def jsAdd : JSNum → JSNum → JSNum
  | .nan, _ => .nan
  | _, .nan => .nan
  | .inf, .negInf => .nan
  | .negInf, .inf => .nan
  | .inf, _ => .inf
  | _, .inf => .inf
  | .negInf, _ => .negInf
  | _, .negInf => .negInf
  | .num a, .num b => .num (a + b)

/-- JS `total > config.monthlyBudget`: a missing `monthlyBudget` field
(`undefined`) coerces to NaN, so the comparison is false; NaN on the left is
also false; +Infinity exceeds any finite budget. -/
def jsGtBudget (x : JSNum) (budget : Option ℚ) : Bool :=
  match budget with
  | none => false
  | some b =>
    match x with
    | .nan => false
    | .inf => true
    | .negInf => false
    | .num q => decide (b < q)

/-- The decimal digit character for `d < 10`. -/
def digitChar (d : Nat) : Char := Char.ofNat (48 + d)

/-- Numeric value of a digit character. -/
def charVal (c : Char) : Nat := c.toNat - 48

/-- Is `c` one of '0'..'9'? -/
def isDigitC (c : Char) : Bool := 48 ≤ c.toNat && c.toNat ≤ 57

/-- Little-endian base-10 digits of `n`, with explicit fuel so the recursion
is structural; `fuel ≥ n` suffices. -/
def natDigitsRev : Nat → Nat → List Nat
  | 0, _ => []
  | _ + 1, 0 => []
  | fuel + 1, n + 1 => (n + 1) % 10 :: natDigitsRev fuel ((n + 1) / 10)

/-- Decimal rendering of a natural number (JS number-to-string on
non-negative integers). -/
def natToChars (n : Nat) : List Char :=
  if n = 0 then ['0'] else ((natDigitsRev n n).map digitChar).reverse

/-- Parse a non-empty all-digit character list as a natural number. -/
def parseNatChars (cs : List Char) : Option Nat :=
  if cs ≠ [] ∧ cs.all isDigitC then
    some (cs.foldl (fun a c => a * 10 + charVal c) 0)
  else none

/-- Split a character list on a separator character (the separator is
dropped; `n` separators yield `n + 1` pieces). -/
def splitOnChar (sep : Char) : List Char → List (List Char)
  | [] => [[]]
  | c :: r =>
    if c = sep then [] :: splitOnChar sep r
    else
      match splitOnChar sep r with
      | [] => [[c]]
      | l :: ls => (c :: l) :: ls

/-- Calendar month (1-based) of a stored date string, modelling
`new Date(expense.date).getMonth() + 1` on the ISO strings the tracker
writes; `none` models the NaN month of an unparsable date, which makes the
strict equality with the target month false. -/
def dateMonth (s : String) : Option Nat :=
  match splitOnChar '-' s.data with
  | [_, m, _] => parseNatChars m
  | _ => none

/-- An expense record as stored in expenses.json (src/index.js lines 93-99). -/
structure Expense where
  id : Nat
  category : String
  date : String
  amount : JSNum
  description : String
  deriving DecidableEq

/-- The config document. `monthlyBudget = none` models a loaded config object
without a monthlyBudget field — the state `loadConfig` produces when it
recovers from an unparsable config.json by returning `{}` (lines 15-20). -/
structure Config where
  monthlyBudget : Option ℚ
  deriving DecidableEq

/-- A calendar date, used for "today" at the moment of an addition. -/
structure ExDate where
  year : Nat
  month : Nat
  day : Nat
  deriving DecidableEq

/-- Left-pad with '0' to width `w`. -/
def padLeft (w : Nat) (cs : List Char) : List Char :=
  List.replicate (w - cs.length) '0' ++ cs

/-- `date.toISOString().split('T')[0]` for a calendar date (line 96). -/
def isoDate (t : ExDate) : String :=
  String.mk (padLeft 4 (natToChars t.year) ++ '-' :: padLeft 2 (natToChars t.month)
    ++ '-' :: padLeft 2 (natToChars t.day))

/-- src/index.js lines 157-166 (`computeExpenses`): keep the records whose
stored date has the target calendar month, then sum their amounts with
`reduce((sum, e) => sum + e.amount, 0)`. -/
def computeExpenses (month : Nat) (expenses : List Expense) : JSNum :=
  (expenses.filter (fun e => dateMonth e.date == some month)).foldl
    (fun sum e => jsAdd sum e.amount) (.num 0)

/-- src/index.js line 87: the id for a new record is the last record's id
plus one, or 1 when the ledger is empty. -/
def nextId (expenses : List Expense) : Nat :=
  match expenses.getLast? with
  | none => 1
  | some e => e.id + 1

/-- Outcome of `addExpense`: the InvalidAmount early return (nothing is
saved), or the saved ledger together with the warned flag and the id the
success message reports. -/
inductive AddResult where
  | invalidAmount
  | added (warned : Bool) (ledger : List Expense) (newId : Nat)
  deriving DecidableEq

/-- src/index.js lines 85-112 (`addExpense`): compute the next id, validate
the amount with `isNaN(amount) || amount <= 0`, build the record with
today's ISO date, compare this month's existing total plus the new amount
against the configured budget for the warning, then push and save. -/
def addExpense (amount : JSNum) (description category : String) (today : ExDate)
    (expenses : List Expense) (config : Config) : AddResult :=
  let expensesID := nextId expenses
  if jsIsNaN amount || jsLeZero amount then .invalidAmount
  else
    let newExpense : Expense := ⟨expensesID, category, isoDate today, amount, description⟩
    let totalExpenses := jsAdd (computeExpenses today.month expenses) newExpense.amount
    let warned := jsGtBudget totalExpenses config.monthlyBudget
    .added warned (expenses ++ [newExpense]) expensesID

/-- A record after the deletion loop decremented its id (line 185). -/
def decId (e : Expense) : Expense :=
  ⟨e.id - 1, e.category, e.date, e.amount, e.description⟩

/-- The loop of src/index.js lines 179-187: skip every record whose id equals
the target (setting `found`), and decrement the id of every record that
comes after a removed one. Returns the final `found` flag and the rebuilt
list. -/
def deleteAux (targetId : Nat) : List Expense → Bool → Bool × List Expense
  | [], found => (found, [])
  | e :: rest, found =>
    if e.id = targetId then deleteAux targetId rest true
    else
      let r := deleteAux targetId rest found
      (r.1, (if found then decId e else e) :: r.2)

/-- src/index.js lines 172-196 (`deleteExpense`): `none` models the NotFound
branch (no save, error message); `some` carries the ledger that is saved. -/
def deleteExpense (targetId : Nat) (expenses : List Expense) : Option (List Expense) :=
  let r := deleteAux targetId expenses false
  if r.1 then some r.2 else none

/-- The all-time sum of src/index.js line 141. -/
def totalAll (expenses : List Expense) : JSNum :=
  expenses.foldl (fun sum e => jsAdd sum e.amount) (.num 0)

/-- src/index.js lines 137-151 (`summaryExpenses`): month 0 gives the
all-time total, `0 < month < 12` delegates to `computeExpenses`, anything
else prints the invalid-month message, modelled as `none`. -/
def summaryExpenses (month : Int) (expenses : List Expense) : Option JSNum :=
  if month = 0 then some (totalAll expenses)
  else if month < 12 ∧ 0 < month then some (computeExpenses month.toNat expenses)
  else none

/-- ASCII lower-casing of one character (JS `toLowerCase` on the ASCII
range, which covers every category the tracker compares). -/
def lowerChar (c : Char) : Char :=
  if 65 ≤ c.toNat ∧ c.toNat ≤ 90 then Char.ofNat (c.toNat + 32) else c

/-- JS `s.toLowerCase()` on ASCII strings. -/
def lowerStr (s : String) : String := String.mk (s.data.map lowerChar)

/-- The caller-side category check of src/index.js lines 230-232. -/
def validCategory (category : String) : Bool :=
  ["food", "transport", "entertainment", "utilities", "other"].contains (lowerStr category)

/-- The warned flag of an `addExpense` outcome. -/
def warnedOf : AddResult → Bool
  | .invalidAmount => false
  | .added w _ _ => w

/-- A valid amount survives `isNaN(amount) || amount <= 0`. -/
def isValidAmount (a : JSNum) : Bool := !(jsIsNaN a || jsLeZero a)

/-- One engine call of a run of additions (amount, description, category,
current date). -/
structure AddInput where
  amount : JSNum
  description : String
  category : String
  today : ExDate

/-- The ledger after an `addExpense` outcome: on InvalidAmount nothing was
saved, so the old ledger stands. -/
def ledgerAfter (r : AddResult) (old : List Expense) : List Expense :=
  match r with
  | .invalidAmount => old
  | .added _ l _ => l

/-- Run a sequence of additions against one config. -/
def addAll (cfg : Config) (inputs : List AddInput) (es : List Expense) : List Expense :=
  inputs.foldl
    (fun led i => ledgerAfter (addExpense i.amount i.description i.category i.today led cfg) led)
    es

/-! ### CSV export (src/index.js lines 212-224) and a spec-modelled re-parse -/

/-- Value of a little-endian digit list. -/
def ofDigitsLE : List Nat → Nat
  | [] => 0
  | d :: r => d + 10 * ofDigitsLE r

/-- The cent pair and integer part of `c` cents, rendered as the fixed
two-decimal string `toFixed(2)` produces for the value c/100. -/
def renderCents (c : Nat) : List Char :=
  natToChars (c / 100) ++ '.' :: [digitChar (c % 100 / 10), digitChar (c % 100 % 10)]

/-- JS `Number.prototype.toFixed(2)` (line 220), idealised on exact
rationals: the nearest hundredth, ties resolved toward the larger value
(the ECMAScript "larger n" rule), rendered with exactly two decimals;
NaN and the infinities render as their JS strings. -/
def toFixed2Chars : JSNum → List Char
  | .nan => "NaN".data
  | .inf => "Infinity".data
  | .negInf => "-Infinity".data
  | .num q =>
    let cents : Int := ⌊q * 100 + 1 / 2⌋
    if cents < 0 then '-' :: renderCents (-cents).toNat else renderCents cents.toNat

/-- The quote-escaping of line 220: `description.replace(/"/g, '""')`. -/
def escQuotes : List Char → List Char
  | [] => []
  | c :: r => if c = '"' then '"' :: '"' :: escQuotes r else c :: escQuotes r

/-- One CSV row (line 220):
`id,category,date,amount.toFixed(2),"description-escaped"`. -/
def rowChars (e : Expense) : List Char :=
  natToChars e.id ++ (',' :: (e.category.data ++ (',' :: (e.date.data ++ (','
    :: (toFixed2Chars e.amount ++ (',' :: ('"' :: (escQuotes e.description.data ++ ['"'])))))))))

/-- The header row of line 218, trailing newline included. -/
def headerChars : List Char := "ID,Category,Date,Amount,Description\n".data

/-- `rows.join("\n")` of line 221. -/
def joinRows : List (List Char) → List Char
  | [] => []
  | [r] => r
  | r :: rs => r ++ '\n' :: joinRows rs

/-- src/index.js lines 212-224 (`extractToCSV`): `none` models the
no-expenses early return (no file produced); `some` carries the flat text
written to expenses.csv. -/
def extractToCSV (expenses : List Expense) : Option (List Char) :=
  if expenses.isEmpty then none
  else some (headerChars ++ joinRows (expenses.map rowChars))

/-- Modelled from the spec: the repository ships no CSV reader, so the
re-parser of the round-trip property in §4.7/§8 ("export then re-parse ...
following standard delimited-text quoting") is modelled here. A parsed row
of the flat text. -/
structure ParsedRow where
  id : Nat
  category : String
  date : String
  amount : JSNum
  description : String
  deriving DecidableEq

/-- Modelled from the spec: take an unquoted field up to the next
delimiter, returning the field and the remainder after the comma. -/
def splitAtComma : List Char → Option (List Char × List Char)
  | [] => none
  | c :: r =>
    if c = ',' then some ([], r)
    else (splitAtComma r).map (fun p => (c :: p.1, p.2))

/-- Modelled from the spec: scan the inside of a quoted field, decoding a
doubled quote as one literal quote and stopping at the closing quote;
returns the decoded content and the remainder after the closing quote. -/
def unquoteAux : List Char → Option (List Char × List Char)
  | [] => none
  | c :: r =>
    if c = '"' then
      match r with
      | c2 :: r2 =>
        if c2 = '"' then (unquoteAux r2).map (fun p => ('"' :: p.1, p.2))
        else some ([], r)
      | [] => some ([], r)
    else (unquoteAux r).map (fun p => (c :: p.1, p.2))

/-- Modelled from the spec: a quoted field, which must span the whole
remaining row. -/
def parseQuoted (cs : List Char) : Option (List Char) :=
  match cs with
  | c :: rest =>
    if c = '"' then
      match unquoteAux rest with
      | some (content, rem) => if rem = [] then some content else none
      | none => none
    else none
  | [] => none

/-- Modelled from the spec: an amount field `intpart.dd` with exactly two
decimals, read back as intpart·100 + dd cents. -/
def parseAmountRev : List Char → Option JSNum
  | c2 :: c1 :: c0 :: ipRev =>
    if c0 = '.' ∧ isDigitC c1 ∧ isDigitC c2 then
      (parseNatChars ipRev.reverse).map
        (fun ip => JSNum.num (((ip * 100 + charVal c1 * 10 + charVal c2 : Nat) : ℚ) / 100))
    else none
  | _ => none

/-- Modelled from the spec: parse a rendered amount. -/
def parseAmountChars (cs : List Char) : Option JSNum := parseAmountRev cs.reverse

/-- Modelled from the spec: one row —
`id,category,date,amount,"description"`. -/
def parseRowChars (cs : List Char) : Option ParsedRow :=
  (splitAtComma cs).bind (fun p1 =>
    (splitAtComma p1.2).bind (fun p2 =>
      (splitAtComma p2.2).bind (fun p3 =>
        (splitAtComma p3.2).bind (fun p4 =>
          (parseNatChars p1.1).bind (fun i =>
            (parseAmountChars p4.1).bind (fun amt =>
              (parseQuoted p4.2).map (fun desc =>
                ⟨i, String.mk p2.1, String.mk p3.1, amt, String.mk desc⟩)))))))

/-- Modelled from the spec: parse every row, failing if any row fails. -/
def parseAllRows : List (List Char) → Option (List ParsedRow)
  | [] => some []
  | r :: rs =>
    match parseRowChars r, parseAllRows rs with
    | some x, some xs => some (x :: xs)
    | _, _ => none

/-- Require and drop an exact leading run of characters. -/
def dropLeading : List Char → List Char → Option (List Char)
  | [], cs => some cs
  | _ :: _, [] => none
  | p :: ps, c :: cs => if c = p then dropLeading ps cs else none

/-- Modelled from the spec: re-parse the exported flat text — strip the
header row, split the remainder into lines, parse each row. -/
def parseCSV (cs : List Char) : Option (List ParsedRow) :=
  match dropLeading headerChars cs with
  | none => none
  | some rest => parseAllRows (splitOnChar '\n' rest)

/-- The row a record should parse back to when recovery is exact. -/
def toParsed (e : Expense) : ParsedRow :=
  ⟨e.id, e.category, e.date, e.amount, e.description⟩

/-! ### Lemmas about the deletion loop -/

theorem deleteAux_no_match_false (t : Nat) (es : List Expense)
    (h : ∀ e ∈ es, e.id ≠ t) : deleteAux t es false = (false, es) := by
  induction es with
  | nil => rfl
  | cons e rest ih =>
    have he : e.id ≠ t := h e (List.mem_cons_self _ _)
    simp [deleteAux, if_neg he, ih (fun x hx => h x (List.mem_cons_of_mem _ hx))]

theorem deleteAux_no_match_true (t : Nat) (es : List Expense)
    (h : ∀ e ∈ es, e.id ≠ t) : deleteAux t es true = (true, es.map decId) := by
  induction es with
  | nil => rfl
  | cons e rest ih =>
    have he : e.id ≠ t := h e (List.mem_cons_self _ _)
    simp [deleteAux, if_neg he, ih (fun x hx => h x (List.mem_cons_of_mem _ hx))]

theorem mem_id_lower_bound (es : List Expense) (a : Nat)
    (hids : es.map (fun e => e.id) = List.range' a es.length) :
    ∀ e ∈ es, a ≤ e.id := by
  intro e he
  have : e.id ∈ List.range' a es.length := by
    rw [← hids]; exact List.mem_map_of_mem _ he
  exact (List.mem_range'_1.mp this).1

theorem deleteAux_found (t : Nat) (es : List Expense) : ∀ a : Nat,
    es.map (fun e => e.id) = List.range' a es.length → a ≤ t → t < a + es.length →
    deleteAux t es false = (true, es.take (t - a) ++ (es.drop (t - a + 1)).map decId) := by
  induction es with
  | nil => intro a _ ha ht; simp only [List.length_nil] at ht; omega
  | cons e rest ih =>
    intro a hids ha ht
    rw [List.map_cons, List.length_cons, List.range'_succ] at hids
    have heid : e.id = a := (List.cons.injEq _ _ _ _).mp hids |>.1
    have hrest : rest.map (fun e => e.id) = List.range' (a + 1) rest.length :=
      (List.cons.injEq _ _ _ _).mp hids |>.2
    by_cases hat : t = a
    · subst hat
      have hne : ∀ x ∈ rest, x.id ≠ t := by
        intro x hx
        have := mem_id_lower_bound rest (t + 1) hrest x hx
        omega
      simp only [deleteAux, if_pos heid, deleteAux_no_match_true t rest hne]
      simp
    · have hne : e.id ≠ t := by omega
      have hlt : a + 1 ≤ t := by omega
      have := ih (a + 1) hrest hlt (by simp only [List.length_cons] at ht; omega)
      simp only [deleteAux, if_neg hne, this]
      have h1 : t - a = (t - (a + 1)) + 1 := by omega
      rw [h1]
      simp only [List.take_succ_cons, List.drop_succ_cons, List.cons_append]
      congr 2

/-! ### Small facts about `List.range'` -/

theorem range'_take_eq : ∀ (k n s : Nat), k ≤ n →
    (List.range' s n).take k = List.range' s k := by
  intro k
  induction k with
  | zero => intro n s _; rfl
  | succ k ih =>
    intro n s hk
    match n with
    | m + 1 =>
      rw [List.range'_succ, List.range'_succ, List.take_succ_cons, ih m (s + 1) (by omega)]

theorem range'_drop_eq : ∀ (k n s : Nat),
    (List.range' s n).drop k = List.range' (s + k) (n - k) := by
  intro k
  induction k with
  | zero => intro n s; simp
  | succ k ih =>
    intro n s
    match n with
    | 0 => simp
    | m + 1 =>
      rw [List.range'_succ, List.drop_succ_cons, ih m (s + 1)]
      congr 1 <;> omega

theorem range'_map_pred : ∀ (n s : Nat), 1 ≤ s →
    (List.range' s n).map (fun m => m - 1) = List.range' (s - 1) n := by
  intro n
  induction n with
  | zero => intro s _; rfl
  | succ n ih =>
    intro s hs
    rw [List.range'_succ, List.range'_succ, List.map_cons, ih (s + 1) (by omega)]
    congr 2
    omega

theorem range'_append_eq : ∀ (m n s : Nat),
    List.range' s m ++ List.range' (s + m) n = List.range' s (m + n) := by
  intro m
  induction m with
  | zero => intro n s; simp
  | succ m ih =>
    intro n s
    rw [List.range'_succ, List.cons_append, show s + (m + 1) = s + 1 + m by omega,
      ih n (s + 1), show m + 1 + n = (m + n) + 1 by omega, List.range'_succ]

/-! ### C1: deletion renumbers densely -/

/-- C1: on a ledger whose identifiers are (in order) exactly 1..N, deleting
identifier k (1 ≤ k ≤ N) succeeds and saves the ledger consisting of the
records before the removed one unchanged followed by the records after it
with ids decremented by exactly 1; the result has size N-1 and its
identifiers are exactly 1..N-1 in order. -/
theorem deleteExpense_renumbers (es : List Expense) (N k : Nat)
    (hids : es.map (fun e => e.id) = List.range' 1 N)
    (hk1 : 1 ≤ k) (hkN : k ≤ N) :
    deleteExpense k es = some (es.take (k - 1) ++ (es.drop k).map decId) ∧
    (es.take (k - 1) ++ (es.drop k).map decId).length = N - 1 ∧
    (es.take (k - 1) ++ (es.drop k).map decId).map (fun e => e.id) =
      List.range' 1 (N - 1) := by
  have hlen : es.length = N := by
    have := congrArg List.length hids
    simpa using this
  have hfound := deleteAux_found k es 1 (by rw [hlen]; exact hids) hk1 (by omega)
  have hk' : k - 1 + 1 = k := by omega
  rw [hk'] at hfound
  refine ⟨by simp [deleteExpense, hfound], ?_, ?_⟩
  · simp only [List.length_append, List.length_take, List.length_map, List.length_drop]
    omega
  · have t1 : (es.take (k - 1)).map (fun e => e.id) = List.range' 1 (k - 1) := by
      rw [List.map_take, hids, range'_take_eq (k - 1) N 1 (by omega)]
    have t2 : ((es.drop k).map decId).map (fun e => e.id) = List.range' k (N - k) := by
      rw [List.map_map]
      have hc : ((fun (e : Expense) => e.id) ∘ decId) =
          (fun m => m - 1) ∘ (fun (e : Expense) => e.id) := rfl
      rw [hc, ← List.map_map, List.map_drop, hids, range'_drop_eq k N 1,
        range'_map_pred (N - k) (1 + k) (by omega)]
      congr 1
      omega
    have t3 := range'_append_eq (k - 1) (N - k) 1
    rw [show 1 + (k - 1) = k by omega] at t3
    rw [List.map_append, t1, t2, t3]
    congr 1
    omega

/-- Witness for C1 at the spec's own scenario: deleting id 2 from a
three-record ledger renumbers the former id 3 to 2. -/
theorem deleteExpense_renumbers_witness :
    deleteExpense 2
      [⟨1, "food", "2025-07-01", .num 5, "a"⟩, ⟨2, "other", "2025-07-02", .num 6, "b"⟩,
       ⟨3, "food", "2025-07-03", .num 7, "c"⟩] =
      some [⟨1, "food", "2025-07-01", .num 5, "a"⟩, ⟨2, "food", "2025-07-03", .num 7, "c"⟩] := by
  have h := deleteExpense_renumbers
    [⟨1, "food", "2025-07-01", .num 5, "a"⟩, ⟨2, "other", "2025-07-02", .num 6, "b"⟩,
     ⟨3, "food", "2025-07-03", .num 7, "c"⟩] 3 2 (by decide) (by decide) (by decide)
  exact h.1

/-! ### C8: deleting a missing id -/

/-- C8: when no record has the target identifier, `deleteExpense` signals
NotFound (`none`, so nothing is saved) and the sequence the loop built is
identical to the original ledger — no mutation at all. -/
theorem deleteExpense_notFound (targetId : Nat) (es : List Expense)
    (h : ∀ e ∈ es, e.id ≠ targetId) :
    deleteExpense targetId es = none ∧ (deleteAux targetId es false).2 = es := by
  have hh := deleteAux_no_match_false targetId es h
  constructor
  · simp [deleteExpense, hh]
  · rw [hh]

/-- Witness for C8: deleting id 5 from a two-record ledger with ids 1 and 2. -/
theorem deleteExpense_notFound_witness :
    deleteExpense 5
      [⟨1, "food", "2025-07-01", .num 5, "a"⟩, ⟨2, "other", "2025-07-02", .num 6, "b"⟩] =
      none := by
  have h := deleteExpense_notFound 5
    [⟨1, "food", "2025-07-01", .num 5, "a"⟩, ⟨2, "other", "2025-07-02", .num 6, "b"⟩]
    (by decide)
  exact h.1

/-! ### C10: missing monthlyBudget field never warns -/

/-- C10: when the loaded config has no monthlyBudget field (the recovery
state for an unparsable config.json), `addExpense` never emits the
budget-exceeded warning, for every amount, ledger, date and category: the
JS comparison `total > undefined` is false, not a comparison against 0. -/
theorem addExpense_no_budget_never_warns (amount : JSNum)
    (description category : String) (today : ExDate) (es : List Expense) :
    warnedOf (addExpense amount description category today es ⟨none⟩) = false := by
  cases h : jsIsNaN amount || jsLeZero amount <;>
    simp [addExpense, h, warnedOf, jsGtBudget]

/-! ### Algebra of JS addition (idealised on exact rationals) -/

theorem jsAdd_zero_left (x : JSNum) : jsAdd (.num 0) x = x := by
  cases x <;> simp [jsAdd]

theorem jsAdd_zero_right (x : JSNum) : jsAdd x (.num 0) = x := by
  cases x <;> simp [jsAdd]

theorem jsAdd_assoc (x y z : JSNum) : jsAdd (jsAdd x y) z = jsAdd x (jsAdd y z) := by
  cases x <;> cases y <;> cases z <;> simp [jsAdd, add_assoc]

theorem foldl_jsAdd_eq (l : List Expense) : ∀ s : JSNum,
    l.foldl (fun sum e => jsAdd sum e.amount) s = jsAdd s (totalAll l) := by
  induction l with
  | nil => intro s; simp [totalAll, jsAdd_zero_right]
  | cons e l ih =>
    intro s
    show l.foldl _ (jsAdd s e.amount) = jsAdd s (totalAll (e :: l))
    have hr : totalAll (e :: l) = jsAdd e.amount (totalAll l) := by
      show l.foldl _ (jsAdd (.num 0) e.amount) = _
      rw [ih (jsAdd (.num 0) e.amount), jsAdd_zero_left]
    rw [ih (jsAdd s e.amount), hr, jsAdd_assoc]

theorem totalAll_append (A B : List Expense) :
    totalAll (A ++ B) = jsAdd (totalAll A) (totalAll B) := by
  unfold totalAll
  rw [List.foldl_append]
  exact foldl_jsAdd_eq B (A.foldl (fun sum e => jsAdd sum e.amount) (.num 0))

theorem computeExpenses_eq_totalAll (m : Nat) (es : List Expense) :
    computeExpenses m es = totalAll (es.filter (fun e => dateMonth e.date == some m)) := rfl

/-! ### C7: monthly aggregation is additive -/

/-- C7: `computeExpenses` (the spec's monthlyTotal) is additive over list
concatenation under JS addition, and returns 0 on a list in which no
record's stored date has calendar month m. -/
theorem computeExpenses_additive (m : Nat) (A B : List Expense) :
    computeExpenses m (A ++ B) = jsAdd (computeExpenses m A) (computeExpenses m B) ∧
    ∀ C : List Expense, (∀ e ∈ C, dateMonth e.date ≠ some m) →
      computeExpenses m C = .num 0 := by
  constructor
  · rw [computeExpenses_eq_totalAll, List.filter_append, totalAll_append,
      computeExpenses_eq_totalAll, computeExpenses_eq_totalAll]
  · intro C hC
    have hnil : C.filter (fun e => dateMonth e.date == some m) = [] := by
      rw [List.filter_eq_nil_iff]
      intro e he
      simpa using hC e he
    rw [computeExpenses_eq_totalAll, hnil]
    rfl

/-- Witness for C7: a concrete split ledger for month 7, and a ledger with
no July record summing to 0. -/
theorem computeExpenses_additive_witness :
    computeExpenses 7
        ([⟨1, "food", "2025-07-01", .num 20, "a"⟩] ++
          [⟨2, "other", "2025-07-02", .num 22, "b"⟩]) =
      jsAdd (computeExpenses 7 [⟨1, "food", "2025-07-01", .num 20, "a"⟩])
        (computeExpenses 7 [⟨2, "other", "2025-07-02", .num 22, "b"⟩]) ∧
    computeExpenses 7 [⟨1, "food", "2025-06-11", .num 9, "c"⟩] = .num 0 := by
  have h := computeExpenses_additive 7 [⟨1, "food", "2025-07-01", .num 20, "a"⟩]
    [⟨2, "other", "2025-07-02", .num 22, "b"⟩]
  exact ⟨h.1, h.2 [⟨1, "food", "2025-06-11", .num 9, "c"⟩] (by decide)⟩

/-! ### C3: summary dispatch -/

/-- C3: summary with month 0 returns the all-time sum of amounts; an integer
month 1..11 delegates to the monthly total; every other month — 12
included, negatives included — signals InvalidMonth (`none`) and returns no
data. -/
theorem summaryExpenses_spec (es : List Expense) (m : Int) :
    summaryExpenses 0 es = some (totalAll es) ∧
    (1 ≤ m → m ≤ 11 → summaryExpenses m es = some (computeExpenses m.toNat es)) ∧
    (m ≠ 0 → ¬(1 ≤ m ∧ m ≤ 11) → summaryExpenses m es = none) := by
  refine ⟨by simp [summaryExpenses], ?_, ?_⟩
  · intro h1 h2
    unfold summaryExpenses
    rw [if_neg (by omega), if_pos (by constructor <;> omega)]
  · intro h1 h2
    unfold summaryExpenses
    rw [if_neg h1, if_neg (by omega)]

/-- Witness for C3: month 5 delegates to the monthly total and month 12 is
rejected, on a concrete one-record ledger. -/
theorem summaryExpenses_spec_witness :
    summaryExpenses 5 [⟨1, "food", "2025-05-02", .num 8, "a"⟩] =
      some (computeExpenses (5 : Int).toNat [⟨1, "food", "2025-05-02", .num 8, "a"⟩]) ∧
    summaryExpenses 12 [⟨1, "food", "2025-05-02", .num 8, "a"⟩] = none := by
  refine ⟨(summaryExpenses_spec [⟨1, "food", "2025-05-02", .num 8, "a"⟩] 5).2.1
    (by decide) (by decide), (summaryExpenses_spec [⟨1, "food", "2025-05-02", .num 8, "a"⟩] 12).2.2
    (by decide) (by decide)⟩

/-! ### Unfolding addExpense on a valid amount -/

theorem addExpense_valid_eq (amount : JSNum) (description category : String)
    (today : ExDate) (es : List Expense) (cfg : Config)
    (h : (jsIsNaN amount || jsLeZero amount) = false) :
    addExpense amount description category today es cfg =
      .added (jsGtBudget (jsAdd (computeExpenses today.month es) amount) cfg.monthlyBudget)
        (es ++ [⟨nextId es, category, isoDate today, amount, description⟩]) (nextId es) := by
  simp [addExpense, h]

theorem valid_of_pos (a : ℚ) (ha : 0 < a) :
    (jsIsNaN (.num a) || jsLeZero (.num a)) = false := by
  simp only [jsIsNaN, jsLeZero, Bool.false_or, decide_eq_false_iff_not, not_le]
  exact ha

/-! ### C2: identifier assignment over sequences of additions -/

theorem getLast?_map_id : ∀ l : List Expense,
    (l.map (fun e => e.id)).getLast? = l.getLast?.map (fun e => e.id) := by
  intro l
  induction l with
  | nil => rfl
  | cons e rest ih =>
    cases rest with
    | nil => rfl
    | cons e2 r2 =>
      rw [List.map_cons, List.map_cons, List.getLast?_cons_cons, ← List.map_cons,
        ih, List.getLast?_cons_cons]

theorem range'_getLast? : ∀ (n s : Nat), 0 < n →
    (List.range' s n).getLast? = some (s + n - 1) := by
  intro n
  induction n with
  | zero => intro s h; omega
  | succ n ih =>
    intro s _
    rw [List.range'_succ]
    cases n with
    | zero => simp
    | succ n =>
      rw [List.range'_succ, List.getLast?_cons_cons, ← List.range'_succ,
        ih (s + 1) (by omega)]
      congr 1
      omega

theorem nextId_of_ids (es : List Expense)
    (hids : es.map (fun e => e.id) = List.range' 1 es.length) :
    nextId es = es.length + 1 := by
  cases hes : es.length with
  | zero =>
    have : es = [] := List.length_eq_zero.mp hes
    subst this
    rfl
  | succ n =>
    have h1 : (es.map (fun e => e.id)).getLast? = some es.length := by
      rw [hids, range'_getLast? es.length 1 (by omega)]
      congr 1
      omega
    rw [getLast?_map_id] at h1
    unfold nextId
    cases hgl : es.getLast? with
    | none => rw [hgl] at h1; simp at h1
    | some e =>
      rw [hgl] at h1
      simp only [Option.map_some'] at h1
      have hsome : e.id = es.length := Option.some.inj h1
      show e.id + 1 = n + 1 + 1
      omega

theorem range'_concat_eq (s n : Nat) :
    List.range' s n ++ [s + n] = List.range' s (n + 1) := by
  have h := range'_append_eq n 1 s
  simpa using h

theorem addExpense_step_ids (a : JSNum) (d c : String) (t : ExDate)
    (es : List Expense) (cfg : Config) (h : isValidAmount a = true)
    (hids : es.map (fun e => e.id) = List.range' 1 es.length) :
    (ledgerAfter (addExpense a d c t es cfg) es).map (fun e => e.id) =
      List.range' 1 (es.length + 1) ∧
    (ledgerAfter (addExpense a d c t es cfg) es).length = es.length + 1 := by
  have hb : (jsIsNaN a || jsLeZero a) = false := by
    simpa [isValidAmount] using h
  rw [addExpense_valid_eq a d c t es cfg hb]
  simp only [ledgerAfter]
  refine ⟨?_, by simp⟩
  rw [List.map_append, hids, List.map_cons, List.map_nil, nextId_of_ids es hids]
  rw [show es.length + 1 = 1 + es.length by omega, range'_concat_eq]
  congr 1
  omega

theorem addAll_ids (cfg : Config) : ∀ (inputs : List AddInput) (es : List Expense),
    (∀ i ∈ inputs, isValidAmount i.amount = true) →
    es.map (fun e => e.id) = List.range' 1 es.length →
    (addAll cfg inputs es).map (fun e => e.id) =
      List.range' 1 (addAll cfg inputs es).length ∧
    (addAll cfg inputs es).length = es.length + inputs.length := by
  intro inputs
  induction inputs with
  | nil => intro es _ hids; exact ⟨hids, by simp [addAll]⟩
  | cons i rest ih =>
    intro es hv hids
    obtain ⟨h1, h2⟩ := addExpense_step_ids i.amount i.description i.category i.today es cfg
      (hv i (List.mem_cons_self _ _)) hids
    have hstep : addAll cfg (i :: rest) es =
        addAll cfg rest
          (ledgerAfter (addExpense i.amount i.description i.category i.today es cfg) es) := rfl
    rw [hstep]
    have hres := ih _ (fun x hx => hv x (List.mem_cons_of_mem _ hx)) (by rw [h1, h2])
    refine ⟨hres.1, ?_⟩
    rw [hres.2, h2, List.length_cons]
    omega

/-- C2: starting from the empty ledger, any sequence of N additions whose
amounts all pass validation assigns identifiers exactly 1..N in order; the
assigned identifier is always the last record's id plus 1, or 1 on an empty
ledger. -/
theorem addExpense_id_assignment (inputs : List AddInput) (cfg : Config)
    (hv : ∀ i ∈ inputs, isValidAmount i.amount = true) :
    (addAll cfg inputs []).map (fun e => e.id) = List.range' 1 inputs.length ∧
    (∀ (l : List Expense) (e : Expense), nextId (l ++ [e]) = e.id + 1) ∧
    nextId ([] : List Expense) = 1 := by
  refine ⟨?_, ?_, rfl⟩
  · have h := addAll_ids cfg inputs [] hv rfl
    rw [h.1, h.2]
    congr 1
    simp
  · intro l e
    unfold nextId
    rw [List.getLast?_concat]

/-- Witness for C2: two valid additions from the empty ledger get ids 1, 2. -/
theorem addExpense_id_assignment_witness :
    (addAll ⟨some 100⟩
        [⟨.num 5, "a", "food", ⟨2025, 7, 14⟩⟩, ⟨.num 3, "b", "other", ⟨2025, 7, 15⟩⟩]
        []).map (fun e => e.id) = List.range' 1 2 :=
  (addExpense_id_assignment
    [⟨.num 5, "a", "food", ⟨2025, 7, 14⟩⟩, ⟨.num 3, "b", "other", ⟨2025, 7, 15⟩⟩]
    ⟨some 100⟩ (by decide)).1

/-! ### C4: amount validation -/

/-- C4 counterexample: +Infinity is not a finite number, yet the check
`isNaN(amount) || amount <= 0` lets it through — the record is appended
(and, exceeding any finite budget, even warns), so the ledger does change. -/
theorem addExpense_infinity_appends :
    addExpense .inf "inf expense" "food" ⟨2025, 7, 14⟩ [] ⟨some 100⟩ =
      .added true [⟨1, "food", "2025-07-14", .inf, "inf expense"⟩] 1 ∧
    addExpense .inf "inf expense" "food" ⟨2025, 7, 14⟩ [] ⟨some 100⟩ ≠
      .invalidAmount := by
  constructor <;> decide

/-- C4 amended: `addExpense` signals InvalidAmount (appending nothing —
the function returns before any save) exactly for NaN, -Infinity, and
finite amounts ≤ 0; +Infinity is not rejected. -/
theorem addExpense_invalidAmount_iff (a : JSNum) (d c : String) (t : ExDate)
    (es : List Expense) (cfg : Config) :
    addExpense a d c t es cfg = .invalidAmount ↔
      (a = .nan ∨ a = .negInf ∨ ∃ q : ℚ, a = .num q ∧ q ≤ 0) := by
  cases a with
  | nan => simp [addExpense, jsIsNaN, jsLeZero]
  | inf => simp [addExpense, jsIsNaN, jsLeZero]
  | negInf => simp [addExpense, jsIsNaN, jsLeZero]
  | num q =>
    by_cases hq : q ≤ 0 <;> simp [addExpense, jsIsNaN, jsLeZero, hq]

/-- Witness for C4's amended theorem: a negative amount is rejected. -/
theorem addExpense_invalidAmount_iff_witness :
    addExpense (.num (-5)) "d" "food" ⟨2025, 7, 14⟩ [] ⟨some 100⟩ = .invalidAmount :=
  (addExpense_invalidAmount_iff (.num (-5)) "d" "food" ⟨2025, 7, 14⟩ [] ⟨some 100⟩).mpr
    (Or.inr (Or.inr ⟨-5, rfl, by norm_num⟩))

/-! ### C5: the engine does not validate categories -/

/-- C5 counterexample: "gadgets" is outside the enumerated category set
(the CLI check of lines 230-236 rejects it), yet the engine's `addExpense`
appends a record carrying it — the engine has no category validation. -/
theorem addExpense_invalid_category_appends :
    validCategory "gadgets" = false ∧
    addExpense (.num 5) "toy" "gadgets" ⟨2025, 7, 14⟩ [] ⟨some 100⟩ =
      .added false [⟨1, "gadgets", "2025-07-14", .num 5, "toy"⟩] 1 := by
  refine ⟨by decide, ?_⟩
  have h1 : addExpense (.num 5) "toy" "gadgets" ⟨2025, 7, 14⟩ [] ⟨some 100⟩ =
      .added (decide ((100 : ℚ) < 0 + 5)) [⟨1, "gadgets", "2025-07-14", .num 5, "toy"⟩] 1 := rfl
  rw [h1, decide_eq_false (by norm_num : ¬ (100 : ℚ) < 0 + 5)]

/-- C5 amended: category validity is enforced only by the CLI caller
(`validCategory`, lines 230-236); the engine's `addExpense` appends a record
with any category string whenever the amount is valid. -/
theorem addExpense_any_category (a : ℚ) (ha : 0 < a) (d cat : String) (t : ExDate)
    (es : List Expense) (cfg : Config) :
    ∃ w, addExpense (.num a) d cat t es cfg =
      .added w (es ++ [⟨nextId es, cat, isoDate t, .num a, d⟩]) (nextId es) :=
  ⟨_, addExpense_valid_eq (.num a) d cat t es cfg (valid_of_pos a ha)⟩

/-- Witness for C5's amended theorem at an out-of-set category. -/
theorem addExpense_any_category_witness :
    ∃ w, addExpense (.num 5) "toy" "gadgets" ⟨2025, 7, 14⟩ [] ⟨some 100⟩ =
      .added w [⟨1, "gadgets", "2025-07-14", .num 5, "toy"⟩] 1 :=
  addExpense_any_category 5 (by norm_num) "toy" "gadgets" ⟨2025, 7, 14⟩ [] ⟨some 100⟩

/-! ### C6: the budget warning -/

/-- C6: with a configured budget b, a valid positive amount a, and a finite
existing total T for the new expense's calendar month, `addExpense` warns
iff T + a strictly exceeds b, and in either case the record is appended and
gets the next identifier — the warning never blocks the addition. -/
theorem addExpense_budget_warning (a b T : ℚ) (d cat : String) (t : ExDate)
    (es : List Expense) (ha : 0 < a)
    (hT : computeExpenses t.month es = .num T) :
    addExpense (.num a) d cat t es ⟨some b⟩ =
      .added (decide (b < T + a))
        (es ++ [⟨nextId es, cat, isoDate t, .num a, d⟩]) (nextId es) := by
  rw [addExpense_valid_eq (.num a) d cat t es ⟨some b⟩ (valid_of_pos a ha), hT]
  simp [jsAdd, jsGtBudget]

/-- Witness for C6 at the spec's scenario: two existing July records
totaling 40.00, budget 45.00, adding 10.00 in July warns (50 > 45) and the
new record still gets identifier 3. -/
theorem addExpense_budget_warning_witness :
    addExpense (.num 10) "Dinner" "food" ⟨2025, 7, 20⟩
        [⟨1, "food", "2025-07-01", .num 20, "g1"⟩, ⟨2, "food", "2025-07-02", .num 20, "g2"⟩]
        ⟨some 45⟩ =
      .added true
        [⟨1, "food", "2025-07-01", .num 20, "g1"⟩, ⟨2, "food", "2025-07-02", .num 20, "g2"⟩,
         ⟨3, "food", "2025-07-20", .num 10, "Dinner"⟩] 3 := by
  have hT0 : computeExpenses (7 : Nat)
      [⟨1, "food", "2025-07-01", .num 20, "g1"⟩, ⟨2, "food", "2025-07-02", .num 20, "g2"⟩] =
      .num (0 + 20 + 20) := rfl
  have hT : computeExpenses (7 : Nat)
      [⟨1, "food", "2025-07-01", .num 20, "g1"⟩, ⟨2, "food", "2025-07-02", .num 20, "g2"⟩] =
      .num 40 := by rw [hT0]; norm_num
  have h := addExpense_budget_warning 10 45 40 "Dinner" "food" ⟨2025, 7, 20⟩
    [⟨1, "food", "2025-07-01", .num 20, "g1"⟩, ⟨2, "food", "2025-07-02", .num 20, "g2"⟩]
    (by norm_num) hT
  rw [h, decide_eq_true (by norm_num : (45 : ℚ) < 40 + 10)]
  decide

/-! ### Decimal numerals round-trip through their rendering -/

theorem isDigitC_digitChar : ∀ d, d < 10 → isDigitC (digitChar d) = true := by decide

theorem charVal_digitChar : ∀ d, d < 10 → charVal (digitChar d) = d := by decide

theorem natDigitsRev_lt10 : ∀ fuel n d, d ∈ natDigitsRev fuel n → d < 10 := by
  intro fuel
  induction fuel with
  | zero => intro n d h; simp [natDigitsRev] at h
  | succ f ih =>
    intro n d h
    cases n with
    | zero => simp [natDigitsRev] at h
    | succ n =>
      simp only [natDigitsRev, List.mem_cons] at h
      rcases h with h | h
      · omega
      · exact ih _ d h

theorem natDigitsRev_ofDigits : ∀ fuel n, n ≤ fuel →
    ofDigitsLE (natDigitsRev fuel n) = n := by
  intro fuel
  induction fuel with
  | zero => intro n h; have : n = 0 := by omega
            subst this; rfl
  | succ f ih =>
    intro n h
    cases n with
    | zero => rfl
    | succ n =>
      have hdiv : (n + 1) / 10 ≤ f := by omega
      simp only [natDigitsRev, ofDigitsLE, ih _ hdiv]
      omega

theorem natDigitsRev_ne_nil (n : Nat) (h : n ≠ 0) : natDigitsRev n n ≠ [] := by
  cases n with
  | zero => omega
  | succ m => simp [natDigitsRev]

theorem parse_render_digits : ∀ l : List Nat, (∀ d ∈ l, d < 10) → ∀ a : Nat,
    ((l.map digitChar).reverse).foldl (fun acc c => acc * 10 + charVal c) a =
      a * 10 ^ l.length + ofDigitsLE l := by
  intro l
  induction l with
  | nil => intro _ a; simp [ofDigitsLE]
  | cons d r ih =>
    intro h a
    have hd : d < 10 := h d (List.mem_cons_self _ _)
    have hr : ∀ x ∈ r, x < 10 := fun x hx => h x (List.mem_cons_of_mem _ hx)
    simp only [List.map_cons, List.reverse_cons, List.foldl_append, List.foldl_cons,
      List.foldl_nil, ih hr a, charVal_digitChar d hd, List.length_cons, ofDigitsLE]
    ring

theorem natToChars_all_digits (n : Nat) : ∀ c ∈ natToChars n, isDigitC c = true := by
  intro c hc
  unfold natToChars at hc
  by_cases hn : n = 0
  · rw [if_pos hn] at hc
    simp only [List.mem_singleton] at hc
    subst hc; decide
  · rw [if_neg hn] at hc
    rw [List.mem_reverse, List.mem_map] at hc
    obtain ⟨d, hdl, rfl⟩ := hc
    exact isDigitC_digitChar d (natDigitsRev_lt10 n n d hdl)

theorem parseNatChars_natToChars (n : Nat) : parseNatChars (natToChars n) = some n := by
  by_cases hn : n = 0
  · subst hn; decide
  · have hd : ∀ d ∈ natDigitsRev n n, d < 10 := fun d => natDigitsRev_lt10 n n d
    have hcond : natToChars n ≠ [] ∧ (natToChars n).all isDigitC = true := by
      constructor
      · unfold natToChars
        rw [if_neg hn]
        simp [natDigitsRev_ne_nil n hn]
      · rw [List.all_eq_true]
        intro c hc
        exact natToChars_all_digits n c hc
    unfold parseNatChars
    rw [if_pos hcond]
    unfold natToChars
    rw [if_neg hn, parse_render_digits (natDigitsRev n n) hd 0,
      natDigitsRev_ofDigits n n le_rfl]
    simp

/-! ### Field splitting and quote escaping -/

theorem splitAtComma_append (l r : List Char) (h : ∀ c ∈ l, c ≠ ',') :
    splitAtComma (l ++ ',' :: r) = some (l, r) := by
  induction l with
  | nil => simp [splitAtComma]
  | cons c l ih =>
    have hc : c ≠ ',' := h c (List.mem_cons_self _ _)
    simp [splitAtComma, hc, ih (fun x hx => h x (List.mem_cons_of_mem _ hx))]

theorem unquoteAux_cons_ne (c : Char) (r : List Char) (hc : c ≠ '"') :
    unquoteAux (c :: r) = (unquoteAux r).map (fun p => (c :: p.1, p.2)) := by
  conv_lhs => unfold unquoteAux
  rw [if_neg hc]

theorem unquoteAux_two_quotes (r : List Char) :
    unquoteAux ('"' :: '"' :: r) = (unquoteAux r).map (fun p => ('"' :: p.1, p.2)) := by
  conv_lhs => unfold unquoteAux
  simp

theorem unquoteAux_escape : ∀ d : List Char, unquoteAux (escQuotes d ++ ['"']) = some (d, []) := by
  intro d
  induction d with
  | nil => rfl
  | cons c d ih =>
    by_cases hc : c = '"'
    · subst hc
      have hesc : escQuotes ('"' :: d) ++ ['"'] = '"' :: '"' :: (escQuotes d ++ ['"']) := by
        simp [escQuotes]
      rw [hesc, unquoteAux_two_quotes, ih]
      rfl
    · have hesc : escQuotes (c :: d) ++ ['"'] = c :: (escQuotes d ++ ['"']) := by
        simp [escQuotes, hc]
      rw [hesc, unquoteAux_cons_ne c _ hc, ih]
      rfl

theorem parseQuoted_escape (d : List Char) :
    parseQuoted ('"' :: (escQuotes d ++ ['"'])) = some d := by
  simp [parseQuoted, unquoteAux_escape d]

theorem dropLeading_append : ∀ (p r : List Char), dropLeading p (p ++ r) = some r := by
  intro p
  induction p with
  | nil => intro r; rfl
  | cons c p ih => intro r; simp [dropLeading, ih r]

theorem splitOnChar_no_sep (sep : Char) : ∀ l : List Char, (∀ c ∈ l, c ≠ sep) →
    splitOnChar sep l = [l] := by
  intro l
  induction l with
  | nil => intro _; rfl
  | cons c l ih =>
    intro h
    have hc : c ≠ sep := h c (List.mem_cons_self _ _)
    simp [splitOnChar, hc, ih (fun x hx => h x (List.mem_cons_of_mem _ hx))]

theorem splitOnChar_append_sep (sep : Char) : ∀ (l t : List Char), (∀ c ∈ l, c ≠ sep) →
    splitOnChar sep (l ++ sep :: t) = l :: splitOnChar sep t := by
  intro l
  induction l with
  | nil => intro t _; simp [splitOnChar]
  | cons c l ih =>
    intro t h
    have hc : c ≠ sep := h c (List.mem_cons_self _ _)
    simp [splitOnChar, hc, ih t (fun x hx => h x (List.mem_cons_of_mem _ hx))]

theorem splitOnChar_joinRows : ∀ rows : List (List Char), rows ≠ [] →
    (∀ row ∈ rows, ∀ c ∈ row, c ≠ '\n') →
    splitOnChar '\n' (joinRows rows) = rows := by
  intro rows
  induction rows with
  | nil => intro h _; exact absurd rfl h
  | cons r rs ih =>
    intro _ h
    cases rs with
    | nil =>
      show splitOnChar '\n' r = [r]
      exact splitOnChar_no_sep '\n' r (h r (List.mem_cons_self _ _))
    | cons r2 rs2 =>
      have hjoin : joinRows (r :: r2 :: rs2) = r ++ '\n' :: joinRows (r2 :: rs2) := rfl
      rw [hjoin, splitOnChar_append_sep '\n' r _ (h r (List.mem_cons_self _ _)),
        ih (by simp) (fun row hrow => h row (List.mem_cons_of_mem _ hrow))]

theorem escQuotes_chars : ∀ (d : List Char) (c : Char), c ∈ escQuotes d → c ∈ d ∨ c = '"' := by
  intro d
  induction d with
  | nil => intro c hc; simp [escQuotes] at hc
  | cons x d ih =>
    intro c hc
    by_cases hx : x = '"'
    · subst hx
      rw [show escQuotes ('"' :: d) = '"' :: '"' :: escQuotes d from by simp [escQuotes]] at hc
      rw [List.mem_cons, List.mem_cons] at hc
      rcases hc with rfl | rfl | hc
      · exact Or.inr rfl
      · exact Or.inr rfl
      · rcases ih c hc with h | h
        · exact Or.inl (List.mem_cons_of_mem _ h)
        · exact Or.inr h
    · simp only [escQuotes, if_neg hx, List.mem_cons] at hc
      rcases hc with rfl | hc
      · exact Or.inl (List.mem_cons_self _ _)
      · rcases ih c hc with h | h
        · exact Or.inl (List.mem_cons_of_mem _ h)
        · exact Or.inr h

theorem isDigitC_ne_special (ch : Char) (h : isDigitC ch = true) :
    ch ≠ ',' ∧ ch ≠ '\n' := by
  constructor <;> (rintro rfl; revert h; decide)

/-! ### The rendered amount parses back -/

theorem floor_half_cents (c : Nat) : ⌊((c : ℚ) / 100) * 100 + 1 / 2⌋ = (c : Int) := by
  rw [div_mul_cancel₀ ((c : ℚ)) (by norm_num : (100 : ℚ) ≠ 0)]
  rw [show ((c : ℚ) + 1 / 2) = (((c : Int) : ℚ)) + 1 / 2 by push_cast; ring]
  rw [Int.floor_int_add]
  have hhalf : ⌊(1 / 2 : ℚ)⌋ = 0 := by
    rw [Int.floor_eq_iff]
    norm_num
  rw [hhalf, add_zero]

theorem renderCents_reverse (c : Nat) :
    (renderCents c).reverse =
      digitChar (c % 100 % 10) :: digitChar (c % 100 / 10) :: '.'
        :: (natToChars (c / 100)).reverse := by
  simp [renderCents]

theorem toFixed2Chars_cents (c : Nat) :
    toFixed2Chars (.num ((c : ℚ) / 100)) = renderCents c := by
  have hred : toFixed2Chars (.num ((c : ℚ) / 100)) =
      (if (⌊((c : ℚ) / 100) * 100 + 1 / 2⌋ : Int) < 0
        then '-' :: renderCents (-⌊((c : ℚ) / 100) * 100 + 1 / 2⌋).toNat
        else renderCents (⌊((c : ℚ) / 100) * 100 + 1 / 2⌋).toNat) := rfl
  rw [hred, floor_half_cents c, if_neg (by omega : ¬ (c : Int) < 0)]
  simp

theorem parseAmount_toFixed2 (c : Nat) :
    parseAmountChars (toFixed2Chars (.num ((c : ℚ) / 100))) =
      some (.num ((c : ℚ) / 100)) := by
  rw [toFixed2Chars_cents c]
  unfold parseAmountChars
  rw [renderCents_reverse c]
  have h1 : c % 100 / 10 < 10 := by omega
  have h2 : c % 100 % 10 < 10 := by omega
  simp only [parseAmountRev, isDigitC_digitChar _ h1, isDigitC_digitChar _ h2,
    List.reverse_reverse, parseNatChars_natToChars, Option.map_some', true_and, and_self,
    and_true, if_true, charVal_digitChar _ h1, charVal_digitChar _ h2]
  rw [show c / 100 * 100 + c % 100 / 10 * 10 + c % 100 % 10 = c by omega]

/-! ### Row-level and text-level round trip -/

theorem natToChars_special (n : Nat) : ∀ c ∈ natToChars n, c ≠ ',' ∧ c ≠ '\n' :=
  fun c hc => isDigitC_ne_special c (natToChars_all_digits n c hc)

theorem renderCents_chars (c : Nat) : ∀ ch ∈ renderCents c, ch ≠ ',' ∧ ch ≠ '\n' := by
  intro ch hch
  unfold renderCents at hch
  rw [List.mem_append] at hch
  rcases hch with h | h
  · exact natToChars_special _ ch h
  · rw [List.mem_cons] at h
    rcases h with rfl | h
    · exact (by decide)
    · rw [List.mem_cons, List.mem_singleton] at h
      rcases h with rfl | rfl
      · exact isDigitC_ne_special _ (isDigitC_digitChar _ (by omega))
      · exact isDigitC_ne_special _ (isDigitC_digitChar _ (by omega))

theorem parseRowChars_rowChars (e : Expense) (amt : JSNum)
    (hcat : ∀ c ∈ e.category.data, c ≠ ',')
    (hdate : ∀ c ∈ e.date.data, c ≠ ',')
    (hamtc : ∀ c ∈ toFixed2Chars e.amount, c ≠ ',')
    (hparseAmt : parseAmountChars (toFixed2Chars e.amount) = some amt) :
    parseRowChars (rowChars e) = some ⟨e.id, e.category, e.date, amt, e.description⟩ := by
  have hid : ∀ c ∈ natToChars e.id, c ≠ ',' := fun c hc => (natToChars_special e.id c hc).1
  unfold parseRowChars rowChars
  rw [splitAtComma_append (natToChars e.id) _ hid]
  simp only [Option.some_bind]
  rw [splitAtComma_append e.category.data _ hcat]
  simp only [Option.some_bind]
  rw [splitAtComma_append e.date.data _ hdate]
  simp only [Option.some_bind]
  rw [splitAtComma_append (toFixed2Chars e.amount) _ hamtc]
  simp only [Option.some_bind]
  rw [parseNatChars_natToChars e.id]
  simp only [Option.some_bind]
  rw [hparseAmt]
  simp only [Option.some_bind]
  rw [parseQuoted_escape e.description.data, Option.map_some']

theorem rowChars_no_newline (e : Expense) (cn : Nat)
    (hcat : ∀ ch ∈ e.category.data, ch ≠ '\n')
    (hdate : ∀ ch ∈ e.date.data, ch ≠ '\n')
    (hdesc : ∀ ch ∈ e.description.data, ch ≠ '\n')
    (hamt : toFixed2Chars e.amount = renderCents cn) :
    ∀ ch ∈ rowChars e, ch ≠ '\n' := by
  intro ch hch
  unfold rowChars at hch
  rw [hamt] at hch
  rcases List.mem_append.mp hch with h | h
  · exact (natToChars_special e.id ch h).2
  rcases List.mem_cons.mp h with rfl | h
  · decide
  rcases List.mem_append.mp h with h | h
  · exact hcat ch h
  rcases List.mem_cons.mp h with rfl | h
  · decide
  rcases List.mem_append.mp h with h | h
  · exact hdate ch h
  rcases List.mem_cons.mp h with rfl | h
  · decide
  rcases List.mem_append.mp h with h | h
  · exact (renderCents_chars cn ch h).2
  rcases List.mem_cons.mp h with rfl | h
  · decide
  rcases List.mem_cons.mp h with rfl | h
  · decide
  rcases List.mem_append.mp h with h | h
  · rcases escQuotes_chars _ ch h with h2 | rfl
    · exact hdesc ch h2
    · decide
  rcases List.mem_cons.mp h with rfl | h
  · decide
  exact absurd h (List.not_mem_nil ch)

theorem parseAllRows_map (es : List Expense)
    (h : ∀ e ∈ es, parseRowChars (rowChars e) = some (toParsed e)) :
    parseAllRows (es.map rowChars) = some (es.map toParsed) := by
  induction es with
  | nil => rfl
  | cons e rest ih =>
    simp only [List.map_cons, parseAllRows, h e (List.mem_cons_self _ _),
      ih (fun x hx => h x (List.mem_cons_of_mem _ hx))]

/-! ### C9: export/re-parse round trip -/

/-- C9 amended: for a non-empty ledger whose categories and dates contain
no comma or newline, whose descriptions contain no newline, and whose
amounts are whole numbers of cents (amount = cents/100), exporting and
re-parsing the flat text recovers every record — identifier, category,
date, description (the quote-escaping is lossless) and amount — exactly.
Amounts with more precision than a cent are not recovered exactly (see the
counterexample). -/
theorem extractToCSV_roundTrip (es : List Expense) (hne : es ≠ [])
    (hfields : ∀ e ∈ es,
      (∀ c ∈ e.category.data, c ≠ ',' ∧ c ≠ '\n') ∧
      (∀ c ∈ e.date.data, c ≠ ',' ∧ c ≠ '\n') ∧
      (∀ c ∈ e.description.data, c ≠ '\n') ∧
      (∃ cents : Nat, e.amount = .num ((cents : ℚ) / 100))) :
    extractToCSV es = some (headerChars ++ joinRows (es.map rowChars)) ∧
    parseCSV (headerChars ++ joinRows (es.map rowChars)) = some (es.map toParsed) := by
  constructor
  · cases es with
    | nil => exact absurd rfl hne
    | cons e rest => rfl
  · have hrows : splitOnChar '\n' (joinRows (es.map rowChars)) = es.map rowChars := by
      apply splitOnChar_joinRows
      · simpa using hne
      · intro row hrow
        rw [List.mem_map] at hrow
        obtain ⟨e, he, rfl⟩ := hrow
        obtain ⟨hcat, hdate, hdesc, ⟨cents, hamt⟩⟩ := hfields e he
        exact rowChars_no_newline e cents (fun ch hc => (hcat ch hc).2)
          (fun ch hc => (hdate ch hc).2) hdesc (by rw [hamt, toFixed2Chars_cents])
    simp only [parseCSV, dropLeading_append, hrows]
    apply parseAllRows_map
    intro e he
    obtain ⟨hcat, hdate, _, ⟨cents, hamt⟩⟩ := hfields e he
    exact parseRowChars_rowChars e e.amount (fun c hc => (hcat c hc).1)
      (fun c hc => (hdate c hc).1)
      (by rw [hamt, toFixed2Chars_cents]; exact fun c hc => (renderCents_chars cents c hc).1)
      (by rw [hamt]; exact parseAmount_toFixed2 cents)

/-- Witness for C9's amended theorem: a one-record ledger with an amount of
exactly 1250 cents and a description containing a quote round-trips. -/
theorem extractToCSV_roundTrip_witness :
    extractToCSV [⟨1, "food", "2025-07-14", .num ((1250 : Nat) / 100 : ℚ), "A \"nice\" dinner"⟩] =
      some (headerChars ++
        joinRows ([(⟨1, "food", "2025-07-14", .num ((1250 : Nat) / 100 : ℚ),
          "A \"nice\" dinner"⟩ : Expense)].map rowChars)) ∧
    parseCSV (headerChars ++
        joinRows ([(⟨1, "food", "2025-07-14", .num ((1250 : Nat) / 100 : ℚ),
          "A \"nice\" dinner"⟩ : Expense)].map rowChars)) =
      some ([(⟨1, "food", "2025-07-14", .num ((1250 : Nat) / 100 : ℚ),
        "A \"nice\" dinner"⟩ : Expense)].map toParsed) := by
  apply extractToCSV_roundTrip
  · intro h
    exact absurd h (by decide)
  · intro e he
    rw [List.mem_singleton] at he
    subst he
    exact ⟨by decide, by decide, by decide, ⟨1250, rfl⟩⟩

/-- C9 counterexample: a ledger whose single record has amount 1/8
(= 0.125) exports with toFixed(2) as "0.13"; re-parsing succeeds but
recovers 13/100, not the stored amount — the amount is not recovered
exactly. -/
theorem csv_amount_counterexample :
    (extractToCSV [⟨1, "food", "2025-07-14", .num (1 / 8), "Dinner"⟩]).bind parseCSV =
      some [⟨1, "food", "2025-07-14", .num (((13 : Nat) : ℚ) / 100), "Dinner"⟩] ∧
    JSNum.num (((13 : Nat) : ℚ) / 100) ≠ JSNum.num (1 / 8) := by
  have hfl : (⌊(1 / 8 : ℚ) * 100 + 1 / 2⌋ : Int) = 13 := by
    rw [show (1 / 8 : ℚ) * 100 + 1 / 2 = ((13 : Int) : ℚ) by push_cast; norm_num]
    exact Int.floor_intCast 13
  have hfix : toFixed2Chars (.num ((1 : ℚ) / 8)) = renderCents 13 := by
    have hred : toFixed2Chars (.num ((1 : ℚ) / 8)) =
        (if (⌊((1 : ℚ) / 8) * 100 + 1 / 2⌋ : Int) < 0
          then '-' :: renderCents (-⌊((1 : ℚ) / 8) * 100 + 1 / 2⌋).toNat
          else renderCents (⌊((1 : ℚ) / 8) * 100 + 1 / 2⌋).toNat) := rfl
    rw [hred, hfl, if_neg (by omega)]
    rfl
  have h13 : parseAmountChars (renderCents 13) = some (.num (((13 : Nat) : ℚ) / 100)) := by
    have h := parseAmount_toFixed2 13
    rwa [toFixed2Chars_cents 13] at h
  constructor
  · have hex : extractToCSV [⟨1, "food", "2025-07-14", .num (1 / 8), "Dinner"⟩] =
        some (headerChars ++
          joinRows [rowChars ⟨1, "food", "2025-07-14", .num (1 / 8), "Dinner"⟩]) := rfl
    rw [hex, Option.some_bind]
    have hnonl : ∀ ch ∈ rowChars (⟨1, "food", "2025-07-14", .num (1 / 8), "Dinner"⟩ : Expense),
        ch ≠ '\n' :=
      rowChars_no_newline _ 13 (by decide) (by decide) (by decide) hfix
    have hrows : splitOnChar '\n'
        (joinRows [rowChars (⟨1, "food", "2025-07-14", .num (1 / 8), "Dinner"⟩ : Expense)]) =
        [rowChars (⟨1, "food", "2025-07-14", .num (1 / 8), "Dinner"⟩ : Expense)] := by
      apply splitOnChar_joinRows _ (by simp)
      intro row hrow
      rw [List.mem_singleton] at hrow
      subst hrow
      exact hnonl
    have hrowparse : parseRowChars
        (rowChars (⟨1, "food", "2025-07-14", .num (1 / 8), "Dinner"⟩ : Expense)) =
        some ⟨1, "food", "2025-07-14", .num (((13 : Nat) : ℚ) / 100), "Dinner"⟩ :=
      parseRowChars_rowChars _ _ (by decide) (by decide)
        (by rw [show (⟨1, "food", "2025-07-14", .num (1 / 8), "Dinner"⟩ : Expense).amount =
              .num ((1 : ℚ) / 8) from rfl, hfix]
            exact fun c hc => (renderCents_chars 13 c hc).1)
        (by rw [show (⟨1, "food", "2025-07-14", .num (1 / 8), "Dinner"⟩ : Expense).amount =
              .num ((1 : ℚ) / 8) from rfl, hfix]
            exact h13)
    simp only [parseCSV, dropLeading_append, hrows, parseAllRows, hrowparse]
  · intro h
    have h2 : (((13 : Nat) : ℚ) / 100) = (1 / 8 : ℚ) := by injection h
    norm_num at h2

end ExpenseTracker
